import Mathlib

/-!
Verification of the Chebyshev evaluation kernel of `ruby-ephem`
(`ext/ephem/chebyshev/chebyshev.c`).

The C extension exposes two module functions,
`Ephem::Computation::ChebyshevPolynomial.evaluate(coeffs, t)` and
`.evaluate_derivative(coeffs, t, radius)`.  Both walk a Ruby array of
3-component coefficient arrays with the Clenshaw recurrence.

Embedding choices:
* Ruby `VALUE`s that the kernel inspects are modelled by `RVal`:
  a numeric (`num`), an array (`arr`), or anything else (`nl`, which also
  stands for Ruby `nil`, the value `rb_ary_entry` yields out of bounds).
* C `double` arithmetic is modelled by exact rationals `ℚ`.
* `Check_Type(v, T_ARRAY)` and `NUM2DBL(v)` raise `TypeError` on a
  mismatch; raising is modelled by `Except Unit`.
-/

namespace RubyEphem

/-- A Ruby value as far as the kernel can observe it: a numeric value,
an array, or anything else (`nl` covers Ruby `nil` and every other
non-array non-numeric object, which the kernel treats identically). -/
inductive RVal where
  | num (q : ℚ)
  | arr (elems : List RVal)
  | nl

/-- Model of `rb_ary_entry(l, k)` for a non-negative index: the element, or `nil`
when the index is out of range. -/
def entry (l : List RVal) (k : ℕ) : RVal :=
  l.getD k .nl

/-- Model of `NUM2DBL(v)`: the numeric payload, or a `TypeError` for a
non-numeric value. -/
def toDbl : RVal → Except Unit ℚ
  | .num q => .ok q
  | _ => .error ()

/-- Model of `Check_Type(v, T_ARRAY)`: the element list, or a `TypeError` for a
non-array value. -/
def checkArray : RVal → Except Unit (List RVal)
  | .arr l => .ok l
  | _ => .error ()

/-- The per-element body shared by both loops: `Check_Type(c_ary, T_ARRAY)`
followed by `NUM2DBL(rb_ary_entry(c_ary, 0..2))`. -/
def readCoeff3 (v : RVal) : Except Unit (ℚ × ℚ × ℚ) := do
  let a ← checkArray v
  let c0 ← toDbl (entry a 0)
  let c1 ← toDbl (entry a 1)
  let c2 ← toDbl (entry a 2)
  return (c0, c1, c2)

/-- Constant `SECONDS_PER_DAY` from the C source. -/
def SECONDS_PER_DAY : ℚ := 86400

/-- The `for (k = n - 1; k > 0; k--)` loop of `chebyshev_evaluate`:
called with counter `m` it visits indices `m, m-1, ..., 1`.  State is the
pair of accumulator triples `(b1, b2)` for the three axes. -/
def clenshawLoop (l : List RVal) (t2 : ℚ) :
    ℕ → (ℚ × ℚ × ℚ) → (ℚ × ℚ × ℚ) → Except Unit ((ℚ × ℚ × ℚ) × (ℚ × ℚ × ℚ))
  | 0, b1, b2 => .ok (b1, b2)
  | k + 1, b1, b2 => do
      let c ← readCoeff3 (entry l (k + 1))
      clenshawLoop l t2 k
        (t2 * b1.1 - b2.1 + c.1,
         t2 * b1.2.1 - b2.2.1 + c.2.1,
         t2 * b1.2.2 - b2.2.2 + c.2.2) b1

/-- Model of `chebyshev_evaluate(self, rb_coeffs, rb_t)`; the numeric time is
passed directly since every claim concerns numeric `t`. -/
def chebyshev_evaluate (rb_coeffs : RVal) (t : ℚ) : Except Unit (ℚ × ℚ × ℚ) := do
  let l ← checkArray rb_coeffs
  let b ← clenshawLoop l (2 * t) (l.length - 1) (0, 0, 0) (0, 0, 0)
  let c ← readCoeff3 (entry l 0)
  return (t * b.1.1 - b.2.1 + c.1,
          t * b.1.2.1 - b.2.2.1 + c.2.1,
          t * b.1.2.2 - b.2.2.2 + c.2.2)

/-- The `for (k = n - 1; k > 0; k--)` loop of
`chebyshev_evaluate_derivative`, with `k2 = 2.0 * k` applied to each
coefficient. -/
def derivLoop (l : List RVal) (t2 : ℚ) :
    ℕ → (ℚ × ℚ × ℚ) → (ℚ × ℚ × ℚ) → Except Unit ((ℚ × ℚ × ℚ) × (ℚ × ℚ × ℚ))
  | 0, d1, d2 => .ok (d1, d2)
  | k + 1, d1, d2 => do
      let c ← readCoeff3 (entry l (k + 1))
      let k2 : ℚ := 2 * ((k : ℚ) + 1)
      derivLoop l t2 k
        (t2 * d1.1 - d2.1 + k2 * c.1,
         t2 * d1.2.1 - d2.2.1 + k2 * c.2.1,
         t2 * d1.2.2 - d2.2.2 + k2 * c.2.2) d1

/-- Model of `chebyshev_evaluate_derivative(self, rb_coeffs, rb_t, rb_radius)`. -/
def chebyshev_evaluate_derivative (rb_coeffs : RVal) (t radius : ℚ) :
    Except Unit (ℚ × ℚ × ℚ) := do
  let l ← checkArray rb_coeffs
  if l.length < 2 then
    return (0, 0, 0)
  else do
    let d ← derivLoop l (2 * t) (l.length - 1) (0, 0, 0) (0, 0, 0)
    let scale := SECONDS_PER_DAY / (2 * radius)
    return (d.1.1 * scale, d.1.2.1 * scale, d.1.2.2 * scale)

/-- A 3-vector coefficient literal, for concrete test records. -/
def vec3 (x y z : ℚ) : RVal :=
  .arr [.num x, .num y, .num z]

/-! ## Chebyshev polynomials of the first and second kind, as functions -/

/-- The polynomial value `T_n(t)`, by the defining recurrence. -/
def chebT (t : ℚ) : ℕ → ℚ
  | 0 => 1
  | 1 => t
  | n + 2 => 2 * t * chebT t (n + 1) - chebT t n

/-- The polynomial value `U_n(t)`, by the defining recurrence. -/
def chebU (t : ℚ) : ℕ → ℚ
  | 0 => 1
  | 1 => 2 * t
  | n + 2 => 2 * t * chebU t (n + 1) - chebU t n

/-- The sequence `U` shifted by two: `chebV t n = U_{n-2}(t)` with the standard
back-extensions `U_{-1} = 0`, `U_{-2} = -1`. -/
def chebV (t : ℚ) : ℕ → ℚ
  | 0 => -1
  | 1 => 0
  | n + 2 => chebU t n

/-! ## The Chebyshev series of a coefficient channel, and its derivative -/

/-- The Chebyshev series `∑_{k<n} c_k · T_k` as a genuine polynomial. -/
noncomputable def chebSeries (c : ℕ → ℚ) (n : ℕ) : Polynomial ℚ :=
  ∑ k ∈ Finset.range n, Polynomial.C (c k) * Polynomial.Chebyshev.T ℚ (k : ℤ)

/-- The derivative of the Chebyshev series with respect to normalized
time, evaluated at `t`. -/
noncomputable def chebSeriesDeriv (c : ℕ → ℚ) (n : ℕ) (t : ℚ) : ℚ :=
  (Polynomial.derivative (chebSeries c n)).eval t

/-! ## The pure per-axis Clenshaw recurrence and its closed form -/

/-- One axis of the loop body, as a pure function: starting from counter
`m` and accumulators `(b1, b2)`, fold `b1' = 2t·b1 - b2 + c k` for
`k = m, m-1, ..., 1`. -/
def clenshawF (c : ℕ → ℚ) (t : ℚ) : ℕ → ℚ → ℚ → ℚ × ℚ
  | 0, b1, b2 => (b1, b2)
  | k + 1, b1, b2 => clenshawF c t k (2 * t * b1 - b2 + c (k + 1)) b1

/-! ## Well-formed records and the loops' closed forms -/

/-- Whether an `Except Unit` computation succeeded. -/
def okB {α : Type _} : Except Unit α → Bool
  | .ok _ => true
  | .error _ => false

/-- Whether an `Except Unit` computation raised. -/
def errB {α : Type _} : Except Unit α → Bool
  | .ok _ => false
  | .error _ => true

/-- The coefficient triple the kernel extracts at index `k`
(defaulting to zero when extraction would raise). -/
def coeffAt (l : List RVal) (k : ℕ) : ℚ × ℚ × ℚ :=
  match readCoeff3 (entry l k) with
  | .ok v => v
  | .error _ => (0, 0, 0)

/-- x-axis coefficient channel of a record. -/
def compX (l : List RVal) (k : ℕ) : ℚ := (coeffAt l k).1

/-- y-axis coefficient channel of a record. -/
def compY (l : List RVal) (k : ℕ) : ℚ := (coeffAt l k).2.1

/-- z-axis coefficient channel of a record. -/
def compZ (l : List RVal) (k : ℕ) : ℚ := (coeffAt l k).2.2

/-- A record is well formed when extracting all three components
succeeds for every element: each element is an array whose entries at
indices 0, 1, 2 exist and are numeric.  (Nothing constrains the inner
length beyond index 2.) -/
def wfRecord (l : List RVal) : Bool :=
  l.all fun v => okB (readCoeff3 v)

/-- Two inner elements agree on everything the kernel can observe: both
are arrays with identical entries at indices 0, 1, 2 (further components
are unconstrained), or they are the same value. -/
def innerAgree (v w : RVal) : Prop :=
  match v, w with
  | .arr a, .arr b => entry a 0 = entry b 0 ∧ entry a 1 = entry b 1 ∧ entry a 2 = entry b 2
  | v, w => v = w

/-! ## Short inner vectors -/

/-- Whether a value is numeric. -/
def isNumB : RVal → Bool
  | .num _ => true
  | _ => false

/-- An inner element that is an array of numeric components but has
fewer than 3 of them. -/
def shortVec (v : RVal) : Bool :=
  match v with
  | .arr a => decide (a.length < 3) && a.all isNumB
  | _ => false

/-! ## Scaling every coefficient component by a constant -/

/-- Scale a single component: numeric payloads are multiplied by `c`,
everything else is untouched. -/
def scaleComp (c : ℚ) : RVal → RVal
  | .num q => .num (c * q)
  | v => v

/-- Scale an inner coefficient vector componentwise. -/
def scaleVec (c : ℚ) : RVal → RVal
  | .arr a => .arr (a.map (scaleComp c))
  | v => v

/-- Scale every coefficient component of a record by `c`. -/
def scaleRec (c : ℚ) (l : List RVal) : List RVal :=
  l.map (scaleVec c)

-- Sanity checks against the spec's concrete scenarios.
example :
    chebyshev_evaluate (.arr [vec3 1 0 0, vec3 0 1 0, vec3 0 0 1]) 0 =
      .ok (1, 0, -1) := by
  simp [chebyshev_evaluate, clenshawLoop, readCoeff3, checkArray, toDbl, entry, vec3,
    Except.instMonad, Except.bind, Except.map, Except.pure]

example :
    chebyshev_evaluate (.arr [vec3 2 0 0, vec3 0 0 0]) (1/3) = .ok (2, 0, 0) := by
  simp [chebyshev_evaluate, clenshawLoop, readCoeff3, checkArray, toDbl, entry, vec3,
    Except.instMonad, Except.bind, Except.map, Except.pure]

example :
    chebyshev_evaluate_derivative (.arr [vec3 2 0 0, vec3 0 0 0]) (1/3) 5 =
      .ok (0, 0, 0) := by
  simp [chebyshev_evaluate_derivative, derivLoop, readCoeff3, checkArray, toDbl, entry, vec3,
    SECONDS_PER_DAY, Except.instMonad, Except.bind, Except.map, Except.pure]

/-- Two-step induction on `ℕ`. -/
theorem nat_two_step {P : ℕ → Prop} (h0 : P 0) (h1 : P 1)
    (hstep : ∀ n, P n → P (n + 1) → P (n + 2)) : ∀ n, P n := by
  have key : ∀ n, P n ∧ P (n + 1) := by
    intro n
    induction n with
    | zero => exact ⟨h0, h1⟩
    | succ k ih => exact ⟨ih.2, hstep k ih.1 ih.2⟩
  exact fun n => (key n).1

theorem chebV_rec (t : ℚ) : ∀ m : ℕ, chebV t (m + 2) = 2 * t * chebV t (m + 1) - chebV t m
  | 0 => by simp [chebV, chebU]
  | 1 => by simp [chebV, chebU]
  | m + 2 => by
    show chebU t (m + 2) = 2 * t * chebU t (m + 1) - chebU t m
    rfl

/-- Identity `T_k(t) = t·U_{k-1}(t) - U_{k-2}(t)`, in shifted form. -/
theorem chebT_eq_tV (t : ℚ) : ∀ k : ℕ, chebT t k = t * chebV t (k + 1) - chebV t k := by
  refine nat_two_step ?_ ?_ ?_
  · simp [chebT, chebV]
  · simp [chebT, chebV, chebU]
  · intro k ih1 ih2
    have ih2' : chebT t (k + 1) = t * chebV t (k + 2) - chebV t (k + 1) := ih2
    have h3 : chebV t (k + 3) = 2 * t * chebV t (k + 2) - chebV t (k + 1) := chebV_rec t (k + 1)
    have h4 : chebV t (k + 2) = 2 * t * chebV t (k + 1) - chebV t k := chebV_rec t k
    show 2 * t * chebT t (k + 1) - chebT t k = t * chebV t (k + 3) - chebV t (k + 2)
    rw [ih1, ih2', h3, h4]
    ring

/-- The function `chebT` agrees with Mathlib's Chebyshev polynomial
of the first kind. -/
theorem chebT_eval (t : ℚ) : ∀ n : ℕ, (Polynomial.Chebyshev.T ℚ (n : ℤ)).eval t = chebT t n := by
  refine nat_two_step ?_ ?_ ?_
  · simp [Polynomial.Chebyshev.T_zero, chebT]
  · simp [Polynomial.Chebyshev.T_one, chebT]
  · intro n ih1 ih2
    have hcast : ((n + 2 : ℕ) : ℤ) = (n : ℤ) + 2 := by push_cast; ring
    have h1 : (n : ℤ) + 1 = ((n + 1 : ℕ) : ℤ) := by push_cast; ring
    rw [hcast, Polynomial.Chebyshev.T_add_two, h1]
    simp only [Polynomial.eval_sub, Polynomial.eval_mul, Polynomial.eval_X,
      Polynomial.eval_ofNat]
    rw [ih1, ih2, show chebT t (n + 2) = 2 * t * chebT t (n + 1) - chebT t n from rfl]

/-- The function `chebU` agrees with Mathlib's Chebyshev polynomial
of the second kind. -/
theorem chebU_eval (t : ℚ) : ∀ n : ℕ, (Polynomial.Chebyshev.U ℚ (n : ℤ)).eval t = chebU t n := by
  refine nat_two_step ?_ ?_ ?_
  · simp [Polynomial.Chebyshev.U_zero, chebU]
  · simp [Polynomial.Chebyshev.U_one, chebU]
  · intro n ih1 ih2
    have hcast : ((n + 2 : ℕ) : ℤ) = (n : ℤ) + 2 := by push_cast; ring
    have h1 : (n : ℤ) + 1 = ((n + 1 : ℕ) : ℤ) := by push_cast; ring
    rw [hcast, Polynomial.Chebyshev.U_add_two, h1]
    simp only [Polynomial.eval_sub, Polynomial.eval_mul, Polynomial.eval_X,
      Polynomial.eval_ofNat]
    rw [ih1, ih2, show chebU t (n + 2) = 2 * t * chebU t (n + 1) - chebU t n from rfl]

/-- The pointwise derivative of `T_n`: Mathlib's `T_derivative_eq_U`
transported to the function level, with `ℕ`-truncated subtraction in the
index (the `n = 0` term vanishes anyway). -/
theorem chebT_deriv_eval (t : ℚ) (n : ℕ) :
    (Polynomial.derivative (Polynomial.Chebyshev.T ℚ (n : ℤ))).eval t
      = (n : ℚ) * chebU t (n - 1) := by
  cases n with
  | zero => simp [Polynomial.Chebyshev.T_zero]
  | succ m =>
    rw [Polynomial.Chebyshev.T_derivative_eq_U]
    have h1 : ((m + 1 : ℕ) : ℤ) - 1 = ((m : ℕ) : ℤ) := by push_cast; ring
    rw [h1]
    simp only [Polynomial.eval_mul, Polynomial.eval_intCast]
    rw [chebU_eval]
    push_cast
    simp

theorem chebSeries_eval (c : ℕ → ℚ) (n : ℕ) (t : ℚ) :
    (chebSeries c n).eval t = ∑ k ∈ Finset.range n, c k * chebT t k := by
  rw [chebSeries, Polynomial.eval_finset_sum]
  refine Finset.sum_congr rfl fun k _ => ?_
  rw [Polynomial.eval_mul, Polynomial.eval_C, chebT_eval]

theorem chebSeriesDeriv_eq_sum (c : ℕ → ℚ) (n : ℕ) (t : ℚ) :
    chebSeriesDeriv c n t = ∑ k ∈ Finset.range n, c k * ((k : ℚ) * chebU t (k - 1)) := by
  rw [chebSeriesDeriv, chebSeries, map_sum, Polynomial.eval_finset_sum]
  refine Finset.sum_congr rfl fun k _ => ?_
  rw [Polynomial.derivative_C_mul, Polynomial.eval_mul, Polynomial.eval_C, chebT_deriv_eval]

/-- Closed form of the Clenshaw state: after running from counter `m`,
the accumulators are shifted-`U` combinations of the coefficients. -/
theorem clenshawF_eq (c : ℕ → ℚ) (t : ℚ) : ∀ (m : ℕ) (b1 b2 : ℚ),
    clenshawF c t m b1 b2 =
      ((∑ j ∈ Finset.range m, c (j + 1) * chebV t (j + 2))
          + b1 * chebV t (m + 2) - b2 * chebV t (m + 1),
       (∑ j ∈ Finset.range m, c (j + 1) * chebV t (j + 1))
          + b1 * chebV t (m + 1) - b2 * chebV t m) := by
  intro m
  induction m with
  | zero =>
    intro b1 b2
    simp [clenshawF, chebV, chebU]
  | succ k ih =>
    intro b1 b2
    show clenshawF c t k (2 * t * b1 - b2 + c (k + 1)) b1 = _
    rw [ih]
    have h3 : chebV t (k + 3) = 2 * t * chebV t (k + 2) - chebV t (k + 1) := chebV_rec t (k + 1)
    have h2 : chebV t (k + 2) = 2 * t * chebV t (k + 1) - chebV t k := chebV_rec t k
    rw [Finset.sum_range_succ, Finset.sum_range_succ]
    refine Prod.ext ?_ ?_
    · show _ = (∑ j ∈ Finset.range k, c (j + 1) * chebV t (j + 2))
          + c (k + 1) * chebV t (k + 2) + b1 * chebV t (k + 3) - b2 * chebV t (k + 2)
      rw [h3, h2]
      ring
    · show _ = (∑ j ∈ Finset.range k, c (j + 1) * chebV t (j + 1))
          + c (k + 1) * chebV t (k + 1) + b1 * chebV t (k + 2) - b2 * chebV t (k + 1)
      rw [h2]
      ring

theorem except_cases {α : Type _} (e : Except Unit α) : e = .error () ∨ ∃ v, e = .ok v := by
  cases e with
  | error u => exact Or.inl (by cases u; rfl)
  | ok v => exact Or.inr ⟨v, rfl⟩

theorem read_ok_eq {l : List RVal} {k : ℕ}
    (h : okB (readCoeff3 (entry l k)) = true) :
    readCoeff3 (entry l k) = .ok (coeffAt l k) := by
  rcases except_cases (readCoeff3 (entry l k)) with h' | ⟨v, h'⟩
  · rw [h'] at h; simp [okB] at h
  · rw [h']; rw [coeffAt, h']

theorem entry_lt {l : List RVal} {k : ℕ} (h : k < l.length) : entry l k = l[k] := by
  rw [entry, List.getD_eq_getElem?_getD, List.getElem?_eq_getElem h, Option.getD_some]

theorem wf_read {l : List RVal} {k : ℕ} (hwf : wfRecord l = true) (hk : k < l.length) :
    okB (readCoeff3 (entry l k)) = true := by
  rw [entry_lt hk]
  exact List.all_eq_true.mp hwf _ (List.getElem_mem hk)

theorem clenshawLoop_wf_ok (l : List RVal) (t : ℚ) :
    ∀ (m : ℕ) (x1 y1 z1 x2 y2 z2 : ℚ),
    (∀ k, 1 ≤ k → k ≤ m → okB (readCoeff3 (entry l k)) = true) →
    clenshawLoop l (2 * t) m (x1, y1, z1) (x2, y2, z2) =
      .ok (((clenshawF (compX l) t m x1 x2).1,
            (clenshawF (compY l) t m y1 y2).1,
            (clenshawF (compZ l) t m z1 z2).1),
           ((clenshawF (compX l) t m x1 x2).2,
            (clenshawF (compY l) t m y1 y2).2,
            (clenshawF (compZ l) t m z1 z2).2)) := by
  intro m
  induction m with
  | zero =>
    intro x1 y1 z1 x2 y2 z2 _
    rfl
  | succ k ih =>
    intro x1 y1 z1 x2 y2 z2 hread
    have hk := read_ok_eq (hread (k + 1) (by omega) (by omega))
    show (do
        let c ← readCoeff3 (entry l (k + 1))
        clenshawLoop l (2 * t) k
          (2 * t * x1 - x2 + c.1, 2 * t * y1 - y2 + c.2.1, 2 * t * z1 - z2 + c.2.2)
          (x1, y1, z1)) = _
    rw [hk]
    show clenshawLoop l (2 * t) k
        (2 * t * x1 - x2 + compX l (k + 1),
         2 * t * y1 - y2 + compY l (k + 1),
         2 * t * z1 - z2 + compZ l (k + 1)) (x1, y1, z1) = _
    rw [ih _ _ _ _ _ _ fun j h1 h2 => hread j h1 (by omega)]
    rfl

theorem derivLoop_wf_ok (l : List RVal) (t : ℚ) :
    ∀ (m : ℕ) (x1 y1 z1 x2 y2 z2 : ℚ),
    (∀ k, 1 ≤ k → k ≤ m → okB (readCoeff3 (entry l k)) = true) →
    derivLoop l (2 * t) m (x1, y1, z1) (x2, y2, z2) =
      .ok (((clenshawF (fun k => 2 * (k : ℚ) * compX l k) t m x1 x2).1,
            (clenshawF (fun k => 2 * (k : ℚ) * compY l k) t m y1 y2).1,
            (clenshawF (fun k => 2 * (k : ℚ) * compZ l k) t m z1 z2).1),
           ((clenshawF (fun k => 2 * (k : ℚ) * compX l k) t m x1 x2).2,
            (clenshawF (fun k => 2 * (k : ℚ) * compY l k) t m y1 y2).2,
            (clenshawF (fun k => 2 * (k : ℚ) * compZ l k) t m z1 z2).2)) := by
  intro m
  induction m with
  | zero =>
    intro x1 y1 z1 x2 y2 z2 _
    rfl
  | succ k ih =>
    intro x1 y1 z1 x2 y2 z2 hread
    have hk := read_ok_eq (hread (k + 1) (by omega) (by omega))
    show (do
        let c ← readCoeff3 (entry l (k + 1))
        derivLoop l (2 * t) k
          (2 * t * x1 - x2 + 2 * ((k : ℚ) + 1) * c.1,
           2 * t * y1 - y2 + 2 * ((k : ℚ) + 1) * c.2.1,
           2 * t * z1 - z2 + 2 * ((k : ℚ) + 1) * c.2.2)
          (x1, y1, z1)) = _
    rw [hk]
    have hcast : ((k : ℚ) + 1) = ((k + 1 : ℕ) : ℚ) := by push_cast; ring
    show derivLoop l (2 * t) k
        (2 * t * x1 - x2 + 2 * ((k : ℚ) + 1) * compX l (k + 1),
         2 * t * y1 - y2 + 2 * ((k : ℚ) + 1) * compY l (k + 1),
         2 * t * z1 - z2 + 2 * ((k : ℚ) + 1) * compZ l (k + 1)) (x1, y1, z1) = _
    rw [hcast, ih _ _ _ _ _ _ fun j h1 h2 => hread j h1 (by omega)]
    rfl

/-- The Clenshaw combination step recovers the Chebyshev sum. -/
theorem clenshaw_sum (c : ℕ → ℚ) (t : ℚ) (m : ℕ) :
    t * (∑ j ∈ Finset.range m, c (j + 1) * chebV t (j + 2))
      - (∑ j ∈ Finset.range m, c (j + 1) * chebV t (j + 1)) + c 0
    = ∑ k ∈ Finset.range (m + 1), c k * chebT t k := by
  rw [Finset.sum_range_succ']
  have expand : ∀ j ∈ Finset.range m,
      c (j + 1) * chebT t (j + 1)
        = t * (c (j + 1) * chebV t (j + 2)) - c (j + 1) * chebV t (j + 1) := by
    intro j _
    rw [chebT_eq_tV]
    ring
  rw [Finset.sum_congr rfl expand, Finset.sum_sub_distrib, ← Finset.mul_sum]
  simp [chebT, chebV]

/-- The derivative loop's accumulator is twice the series derivative. -/
theorem deriv_sum (c : ℕ → ℚ) (t : ℚ) (m : ℕ) :
    (∑ j ∈ Finset.range m, (2 * ((j + 1 : ℕ) : ℚ) * c (j + 1)) * chebV t (j + 2))
      = 2 * chebSeriesDeriv c (m + 1) t := by
  rw [chebSeriesDeriv_eq_sum, Finset.sum_range_succ']
  have h0 : c 0 * (((0 : ℕ) : ℚ) * chebU t (0 - 1)) = 0 := by
    simp
  rw [h0, add_zero, Finset.mul_sum]
  refine Finset.sum_congr rfl fun j _ => ?_
  have hV : chebV t (j + 2) = chebU t j := rfl
  have hsub : (j + 1) - 1 = j := rfl
  rw [hV, hsub]
  ring

/-- Main closed form of `chebyshev_evaluate` on a well-formed record:
it returns the Chebyshev series of each axis channel evaluated at `t`. -/
theorem evaluate_wf (l : List RVal) (t : ℚ)
    (hwf : wfRecord l = true) (hn : 1 ≤ l.length) :
    chebyshev_evaluate (.arr l) t =
      .ok ((chebSeries (compX l) l.length).eval t,
           (chebSeries (compY l) l.length).eval t,
           (chebSeries (compZ l) l.length).eval t) := by
  obtain ⟨m, hm⟩ : ∃ m, l.length = m + 1 := ⟨l.length - 1, by omega⟩
  have hloop := clenshawLoop_wf_ok l t (l.length - 1) 0 0 0 0 0 0
    (fun k h1 h2 => wf_read hwf (by omega))
  have hread0 := read_ok_eq (wf_read hwf (k := 0) (by omega))
  show (do
      let b ← clenshawLoop l (2 * t) (l.length - 1) (0, 0, 0) (0, 0, 0)
      let c ← readCoeff3 (entry l 0)
      return (t * b.1.1 - b.2.1 + c.1,
              t * b.1.2.1 - b.2.2.1 + c.2.1,
              t * b.1.2.2 - b.2.2.2 + c.2.2)) = _
  rw [hloop, hread0]
  show Except.ok _ = _
  have haxis : ∀ c : ℕ → ℚ,
      t * (clenshawF c t (l.length - 1) 0 0).1
          - (clenshawF c t (l.length - 1) 0 0).2 + c 0
        = (chebSeries c l.length).eval t := by
    intro c
    rw [chebSeries_eval, clenshawF_eq]
    have hm' : l.length - 1 = m := by omega
    rw [hm', hm]
    calc t * ((∑ j ∈ Finset.range m, c (j + 1) * chebV t (j + 2))
            + 0 * chebV t (m + 2) - 0 * chebV t (m + 1))
          - ((∑ j ∈ Finset.range m, c (j + 1) * chebV t (j + 1))
            + 0 * chebV t (m + 1) - 0 * chebV t m) + c 0
        = t * (∑ j ∈ Finset.range m, c (j + 1) * chebV t (j + 2))
            - (∑ j ∈ Finset.range m, c (j + 1) * chebV t (j + 1)) + c 0 := by ring
      _ = ∑ k ∈ Finset.range (m + 1), c k * chebT t k := clenshaw_sum c t m
  refine congrArg Except.ok (Prod.ext ?_ (Prod.ext ?_ ?_))
  · exact haxis (compX l)
  · exact haxis (compY l)
  · exact haxis (compZ l)

/-- Closed form of the derivative loop's final state on a well-formed
record with at least two coefficients: the first accumulator holds twice
the raw series derivative on each axis. -/
theorem derivLoop_closed (l : List RVal) (t : ℚ)
    (hwf : wfRecord l = true) (hn : 2 ≤ l.length) :
    ∃ d2, derivLoop l (2 * t) (l.length - 1) (0, 0, 0) (0, 0, 0) =
      .ok ((2 * chebSeriesDeriv (compX l) l.length t,
            2 * chebSeriesDeriv (compY l) l.length t,
            2 * chebSeriesDeriv (compZ l) l.length t), d2) := by
  obtain ⟨m, hm⟩ : ∃ m, l.length = m + 1 := ⟨l.length - 1, by omega⟩
  have hloop := derivLoop_wf_ok l t (l.length - 1) 0 0 0 0 0 0
    (fun k h1 h2 => wf_read hwf (by omega))
  have haxis : ∀ c : ℕ → ℚ,
      (clenshawF (fun k => 2 * (k : ℚ) * c k) t (l.length - 1) 0 0).1
        = 2 * chebSeriesDeriv c l.length t := by
    intro c
    rw [clenshawF_eq]
    have hm' : l.length - 1 = m := by omega
    rw [hm', hm]
    calc (∑ j ∈ Finset.range m, 2 * ((j + 1 : ℕ) : ℚ) * c (j + 1) * chebV t (j + 2))
            + 0 * chebV t (m + 2) - 0 * chebV t (m + 1)
        = ∑ j ∈ Finset.range m, (2 * ((j + 1 : ℕ) : ℚ) * c (j + 1)) * chebV t (j + 2) := by
          ring
      _ = 2 * chebSeriesDeriv c (m + 1) t := deriv_sum c t m
  refine ⟨((clenshawF (fun k => 2 * (k : ℚ) * compX l k) t (l.length - 1) 0 0).2,
           (clenshawF (fun k => 2 * (k : ℚ) * compY l k) t (l.length - 1) 0 0).2,
           (clenshawF (fun k => 2 * (k : ℚ) * compZ l k) t (l.length - 1) 0 0).2), ?_⟩
  rw [hloop]
  refine congrArg Except.ok (Prod.ext (Prod.ext ?_ (Prod.ext ?_ ?_)) rfl)
  · exact haxis (compX l)
  · exact haxis (compY l)
  · exact haxis (compZ l)

/-- Closed form of `chebyshev_evaluate_derivative` on a well-formed
record with `n ≥ 2`: each component is the raw series derivative times
`SECONDS_PER_DAY / radius` (the loop's factor of two cancels half of the
`2·radius` in the scale). -/
theorem derivative_wf (l : List RVal) (t radius : ℚ)
    (hwf : wfRecord l = true) (hn : 2 ≤ l.length) (hr : radius ≠ 0) :
    chebyshev_evaluate_derivative (.arr l) t radius =
      .ok (chebSeriesDeriv (compX l) l.length t * (SECONDS_PER_DAY / radius),
           chebSeriesDeriv (compY l) l.length t * (SECONDS_PER_DAY / radius),
           chebSeriesDeriv (compZ l) l.length t * (SECONDS_PER_DAY / radius)) := by
  obtain ⟨d2, hloop⟩ := derivLoop_closed l t hwf hn
  show (if l.length < 2 then Except.ok (0, 0, 0) else do
      let d ← derivLoop l (2 * t) (l.length - 1) (0, 0, 0) (0, 0, 0)
      let scale := SECONDS_PER_DAY / (2 * radius)
      return (d.1.1 * scale, d.1.2.1 * scale, d.1.2.2 * scale)) = _
  rw [if_neg (by omega), hloop]
  show Except.ok _ = _
  have hscale : ∀ q : ℚ, 2 * q * (SECONDS_PER_DAY / (2 * radius))
      = q * (SECONDS_PER_DAY / radius) := by
    intro q
    field_simp
    ring
  rw [hscale, hscale, hscale]

/-! ## Error propagation through the loops -/

theorem errB_eq {α : Type _} (e : Except Unit α) : errB e = !okB e := by
  cases e <;> rfl

theorem clenshawLoop_ok_reads (l : List RVal) (t2 : ℚ) :
    ∀ (m : ℕ) (b1 b2 p), clenshawLoop l t2 m b1 b2 = .ok p →
      ∀ k, 1 ≤ k → k ≤ m → okB (readCoeff3 (entry l k)) = true := by
  intro m
  induction m with
  | zero =>
    intro b1 b2 p _ k hk1 hk2
    omega
  | succ m ih =>
    intro b1 b2 p h k hk1 hk2
    have h' : (do
        let c ← readCoeff3 (entry l (m + 1))
        clenshawLoop l t2 m
          (t2 * b1.1 - b2.1 + c.1, t2 * b1.2.1 - b2.2.1 + c.2.1,
           t2 * b1.2.2 - b2.2.2 + c.2.2) b1) = .ok p := h
    rcases except_cases (readCoeff3 (entry l (m + 1))) with hr | ⟨c, hr⟩
    · rw [hr] at h'
      simp [Except.instMonad, Except.bind] at h'
    · rw [hr] at h'
      simp only [Except.instMonad, Except.bind] at h'
      rcases Nat.lt_or_ge k (m + 1) with hk | hk
      · exact ih _ _ _ h' k hk1 (by omega)
      · have : k = m + 1 := by omega
        rw [this, hr]
        rfl

theorem derivLoop_ok_reads (l : List RVal) (t2 : ℚ) :
    ∀ (m : ℕ) (b1 b2 p), derivLoop l t2 m b1 b2 = .ok p →
      ∀ k, 1 ≤ k → k ≤ m → okB (readCoeff3 (entry l k)) = true := by
  intro m
  induction m with
  | zero =>
    intro b1 b2 p _ k hk1 hk2
    omega
  | succ m ih =>
    intro b1 b2 p h k hk1 hk2
    have h' : (do
        let c ← readCoeff3 (entry l (m + 1))
        derivLoop l t2 m
          (t2 * b1.1 - b2.1 + 2 * ((m : ℚ) + 1) * c.1,
           t2 * b1.2.1 - b2.2.1 + 2 * ((m : ℚ) + 1) * c.2.1,
           t2 * b1.2.2 - b2.2.2 + 2 * ((m : ℚ) + 1) * c.2.2) b1) = .ok p := h
    rcases except_cases (readCoeff3 (entry l (m + 1))) with hr | ⟨c, hr⟩
    · rw [hr] at h'
      simp [Except.instMonad, Except.bind] at h'
    · rw [hr] at h'
      simp only [Except.instMonad, Except.bind] at h'
      rcases Nat.lt_or_ge k (m + 1) with hk | hk
      · exact ih _ _ _ h' k hk1 (by omega)
      · have : k = m + 1 := by omega
        rw [this, hr]
        rfl

/-- The two loops traverse the same indices with the same validation, so
they raise on exactly the same records. -/
theorem loops_same_err (l : List RVal) (t2 t2' : ℚ) :
    ∀ (m : ℕ) (b1 b2 d1 d2),
      errB (clenshawLoop l t2 m b1 b2) = errB (derivLoop l t2' m d1 d2) := by
  intro m
  induction m with
  | zero =>
    intro b1 b2 d1 d2
    rfl
  | succ m ih =>
    intro b1 b2 d1 d2
    show errB (do
        let c ← readCoeff3 (entry l (m + 1))
        clenshawLoop l t2 m
          (t2 * b1.1 - b2.1 + c.1, t2 * b1.2.1 - b2.2.1 + c.2.1,
           t2 * b1.2.2 - b2.2.2 + c.2.2) b1)
      = errB (do
        let c ← readCoeff3 (entry l (m + 1))
        derivLoop l t2' m
          (t2' * d1.1 - d2.1 + 2 * ((m : ℚ) + 1) * c.1,
           t2' * d1.2.1 - d2.2.1 + 2 * ((m : ℚ) + 1) * c.2.1,
           t2' * d1.2.2 - d2.2.2 + 2 * ((m : ℚ) + 1) * c.2.2) d1)
    rcases except_cases (readCoeff3 (entry l (m + 1))) with hr | ⟨c, hr⟩
    · rw [hr]
      rfl
    · rw [hr]
      simp only [Except.instMonad, Except.bind]
      exact ih _ _ _ _

/-- Every index the `evaluate` loop and final step touch must extract
successfully when the call returns a value. -/
theorem evaluate_ok_reads (l : List RVal) (t : ℚ) (p : ℚ × ℚ × ℚ)
    (h : chebyshev_evaluate (.arr l) t = .ok p) :
    ∀ k, k < l.length → okB (readCoeff3 (entry l k)) = true := by
  intro k hk
  have h' : (do
      let b ← clenshawLoop l (2 * t) (l.length - 1) (0, 0, 0) (0, 0, 0)
      let c ← readCoeff3 (entry l 0)
      return (t * b.1.1 - b.2.1 + c.1,
              t * b.1.2.1 - b.2.2.1 + c.2.1,
              t * b.1.2.2 - b.2.2.2 + c.2.2)) = .ok p := h
  rcases except_cases (clenshawLoop l (2 * t) (l.length - 1) (0, 0, 0) (0, 0, 0))
    with hb | ⟨b, hb⟩
  · rw [hb] at h'
    simp [Except.instMonad, Except.bind] at h'
  · rcases Nat.eq_or_lt_of_le (Nat.zero_le k) with hk0 | hk0
    · rw [hb] at h'
      simp only [Except.instMonad, Except.bind] at h'
      rcases except_cases (readCoeff3 (entry l 0)) with hc | ⟨c, hc⟩
      · rw [hc] at h'
        simp [Except.map] at h'
      · rw [← hk0, hc]
        rfl
    · exact clenshawLoop_ok_reads l (2 * t) _ _ _ _ hb k (by omega) (by omega)

theorem derivative_ok_reads (l : List RVal) (t radius : ℚ) (p : ℚ × ℚ × ℚ)
    (hn : 2 ≤ l.length)
    (h : chebyshev_evaluate_derivative (.arr l) t radius = .ok p) :
    ∀ k, 1 ≤ k → k ≤ l.length - 1 → okB (readCoeff3 (entry l k)) = true := by
  intro k hk1 hk2
  have h' : (if l.length < 2 then Except.ok (0, 0, 0) else do
      let d ← derivLoop l (2 * t) (l.length - 1) (0, 0, 0) (0, 0, 0)
      let scale := SECONDS_PER_DAY / (2 * radius)
      return (d.1.1 * scale, d.1.2.1 * scale, d.1.2.2 * scale)) = .ok p := h
  rw [if_neg (by omega)] at h'
  rcases except_cases (derivLoop l (2 * t) (l.length - 1) (0, 0, 0) (0, 0, 0))
    with hd | ⟨d, hd⟩
  · rw [hd] at h'
    simp [Except.instMonad, Except.bind] at h'
  · exact derivLoop_ok_reads l (2 * t) _ _ _ _ hd k hk1 hk2

/-! ## Agreement on the observed components -/

theorem innerAgree_of_eq {v w : RVal} (h : v = w) : innerAgree v w := by
  subst h
  cases v with
  | arr a => exact ⟨rfl, rfl, rfl⟩
  | num q => rfl
  | nl => rfl

theorem readCoeff3_agree {v w : RVal} (h : innerAgree v w) : readCoeff3 v = readCoeff3 w := by
  cases v with
  | arr a =>
    cases w with
    | arr b =>
      obtain ⟨h0, h1, h2⟩ := h
      show (do
          let c0 ← toDbl (entry a 0)
          let c1 ← toDbl (entry a 1)
          let c2 ← toDbl (entry a 2)
          return (c0, c1, c2) : Except Unit (ℚ × ℚ × ℚ)) = _
      rw [h0, h1, h2]
      rfl
    | num q => exact absurd h (by simp [innerAgree])
    | nl => exact absurd h (by simp [innerAgree])
  | num q =>
    have h' : RVal.num q = w := h
    rw [← h']
  | nl =>
    have h' : RVal.nl = w := h
    rw [← h']

theorem clenshawLoop_agree (l1 l2 : List RVal) (t2 : ℚ) :
    ∀ (m : ℕ) (b1 b2 : ℚ × ℚ × ℚ),
      (∀ k, 1 ≤ k → k ≤ m → innerAgree (entry l1 k) (entry l2 k)) →
      clenshawLoop l1 t2 m b1 b2 = clenshawLoop l2 t2 m b1 b2 := by
  intro m
  induction m with
  | zero =>
    intro b1 b2 _
    rfl
  | succ m ih =>
    intro b1 b2 hagree
    show (do
        let c ← readCoeff3 (entry l1 (m + 1))
        clenshawLoop l1 t2 m
          (t2 * b1.1 - b2.1 + c.1, t2 * b1.2.1 - b2.2.1 + c.2.1,
           t2 * b1.2.2 - b2.2.2 + c.2.2) b1)
      = (do
        let c ← readCoeff3 (entry l2 (m + 1))
        clenshawLoop l2 t2 m
          (t2 * b1.1 - b2.1 + c.1, t2 * b1.2.1 - b2.2.1 + c.2.1,
           t2 * b1.2.2 - b2.2.2 + c.2.2) b1)
    rw [← readCoeff3_agree (hagree (m + 1) (by omega) (by omega))]
    rcases except_cases (readCoeff3 (entry l1 (m + 1))) with hr | ⟨c, hr⟩
    · rw [hr]
      rfl
    · rw [hr]
      simp only [Except.instMonad, Except.bind]
      exact ih _ _ fun k h1 h2 => hagree k h1 (by omega)

theorem derivLoop_agree (l1 l2 : List RVal) (t2 : ℚ) :
    ∀ (m : ℕ) (b1 b2 : ℚ × ℚ × ℚ),
      (∀ k, 1 ≤ k → k ≤ m → innerAgree (entry l1 k) (entry l2 k)) →
      derivLoop l1 t2 m b1 b2 = derivLoop l2 t2 m b1 b2 := by
  intro m
  induction m with
  | zero =>
    intro b1 b2 _
    rfl
  | succ m ih =>
    intro b1 b2 hagree
    show (do
        let c ← readCoeff3 (entry l1 (m + 1))
        derivLoop l1 t2 m
          (t2 * b1.1 - b2.1 + 2 * ((m : ℚ) + 1) * c.1,
           t2 * b1.2.1 - b2.2.1 + 2 * ((m : ℚ) + 1) * c.2.1,
           t2 * b1.2.2 - b2.2.2 + 2 * ((m : ℚ) + 1) * c.2.2) b1)
      = (do
        let c ← readCoeff3 (entry l2 (m + 1))
        derivLoop l2 t2 m
          (t2 * b1.1 - b2.1 + 2 * ((m : ℚ) + 1) * c.1,
           t2 * b1.2.1 - b2.2.1 + 2 * ((m : ℚ) + 1) * c.2.1,
           t2 * b1.2.2 - b2.2.2 + 2 * ((m : ℚ) + 1) * c.2.2) b1)
    rw [← readCoeff3_agree (hagree (m + 1) (by omega) (by omega))]
    rcases except_cases (readCoeff3 (entry l1 (m + 1))) with hr | ⟨c, hr⟩
    · rw [hr]
      rfl
    · rw [hr]
      simp only [Except.instMonad, Except.bind]
      exact ih _ _ fun k h1 h2 => hagree k h1 (by omega)

/-- Extracting three components from a short array always raises: the
first missing index yields `nil`, which `NUM2DBL` rejects. -/
theorem shortVec_read_err {v : RVal} (h : shortVec v = true) :
    readCoeff3 v = .error () := by
  cases v with
  | num q => simp [shortVec] at h
  | nl => simp [shortVec] at h
  | arr a =>
    have hlen : a.length < 3 := by
      have := (Bool.and_eq_true _ _).mp h
      exact of_decide_eq_true this.1
    match a, hlen with
    | [], _ => rfl
    | [x], _ =>
      show (do
          let c0 ← toDbl (entry [x] 0)
          let c1 ← toDbl (entry [x] 1)
          let c2 ← toDbl (entry [x] 2)
          return (c0, c1, c2) : Except Unit (ℚ × ℚ × ℚ)) = _
      rcases except_cases (toDbl (entry [x] 0)) with h0 | ⟨q0, h0⟩ <;>
        rw [h0] <;> rfl
    | [x, y], _ =>
      show (do
          let c0 ← toDbl (entry [x, y] 0)
          let c1 ← toDbl (entry [x, y] 1)
          let c2 ← toDbl (entry [x, y] 2)
          return (c0, c1, c2) : Except Unit (ℚ × ℚ × ℚ)) = _
      rcases except_cases (toDbl (entry [x, y] 0)) with h0 | ⟨q0, h0⟩ <;> rw [h0]
      · rfl
      · rcases except_cases (toDbl (entry [x, y] 1)) with h1 | ⟨q1, h1⟩ <;>
          rw [h1] <;> rfl

theorem entry_map (f : RVal → RVal) (hf : f .nl = .nl) :
    ∀ (l : List RVal) (k : ℕ), entry (l.map f) k = f (entry l k) := by
  intro l
  induction l with
  | nil => intro k; cases k <;> simp [entry, hf]
  | cons x xs ih =>
    intro k
    cases k with
    | zero => rfl
    | succ k => exact ih k

theorem readCoeff3_scale (c : ℚ) (v : RVal) :
    readCoeff3 (scaleVec c v) =
      (readCoeff3 v).map fun p => (c * p.1, c * p.2.1, c * p.2.2) := by
  cases v with
  | num q => rfl
  | nl => rfl
  | arr a =>
    have hdbl : ∀ w : RVal, toDbl (scaleComp c w) = (toDbl w).map (c * ·) := by
      intro w
      cases w <;> rfl
    have hR : readCoeff3 (RVal.arr a) = (do
        let c0 ← toDbl (entry a 0)
        let c1 ← toDbl (entry a 1)
        let c2 ← toDbl (entry a 2)
        return (c0, c1, c2) : Except Unit (ℚ × ℚ × ℚ)) := rfl
    show (do
        let c0 ← toDbl (entry (a.map (scaleComp c)) 0)
        let c1 ← toDbl (entry (a.map (scaleComp c)) 1)
        let c2 ← toDbl (entry (a.map (scaleComp c)) 2)
        return (c0, c1, c2) : Except Unit (ℚ × ℚ × ℚ)) = _
    rw [hR, entry_map _ rfl, entry_map _ rfl, entry_map _ rfl, hdbl, hdbl, hdbl]
    rcases except_cases (toDbl (entry a 0)) with h0 | ⟨q0, h0⟩ <;>
      rcases except_cases (toDbl (entry a 1)) with h1 | ⟨q1, h1⟩ <;>
        rcases except_cases (toDbl (entry a 2)) with h2 | ⟨q2, h2⟩ <;>
          simp [h0, h1, h2, Except.map, Except.instMonad, Except.bind, Except.pure]

theorem wfRecord_scale {c : ℚ} {l : List RVal} (hwf : wfRecord l = true) :
    wfRecord (scaleRec c l) = true := by
  rw [wfRecord, scaleRec, List.all_map]
  refine List.all_eq_true.mpr fun v hv => ?_
  have := List.all_eq_true.mp hwf v hv
  show okB (readCoeff3 (scaleVec c v)) = true
  rw [readCoeff3_scale]
  rcases except_cases (readCoeff3 v) with h | ⟨p, h⟩
  · rw [h] at this
    simp [okB] at this
  · rw [h]
    rfl

theorem comp_scale (c : ℚ) (l : List RVal) (k : ℕ) :
    compX (scaleRec c l) k = c * compX l k ∧
    compY (scaleRec c l) k = c * compY l k ∧
    compZ (scaleRec c l) k = c * compZ l k := by
  have hentry : entry (scaleRec c l) k = scaleVec c (entry l k) := entry_map _ rfl l k
  have hread : readCoeff3 (entry (scaleRec c l) k)
      = (readCoeff3 (entry l k)).map fun p => (c * p.1, c * p.2.1, c * p.2.2) := by
    rw [hentry, readCoeff3_scale]
  rcases except_cases (readCoeff3 (entry l k)) with h | ⟨p, h⟩
  · rw [h] at hread
    refine ⟨?_, ?_, ?_⟩ <;>
      simp [compX, compY, compZ, coeffAt, h, hread, Except.map]
  · rw [h] at hread
    refine ⟨?_, ?_, ?_⟩ <;>
      simp [compX, compY, compZ, coeffAt, h, hread, Except.map]

/-! ## Claim theorems -/

/-- Claim C2: for every well-formed record of `n ≥ 1` coefficient
3-vectors and every `t`, each component of `evaluate(coefficients, t)`
equals the direct Chebyshev polynomial summation `∑_{k<n} c_k·T_k(t)`
of that axis's channel (stated through the genuine Chebyshev series
polynomial and its evaluation). -/
theorem claim_C2 (l : List RVal) (t : ℚ)
    (hwf : wfRecord l = true) (hn : 1 ≤ l.length) :
    chebyshev_evaluate (.arr l) t =
      .ok ((chebSeries (compX l) l.length).eval t,
           (chebSeries (compY l) l.length).eval t,
           (chebSeries (compZ l) l.length).eval t) :=
  evaluate_wf l t hwf hn

theorem claim_C2_witness :
    wfRecord [vec3 1 0 0, vec3 0 1 0, vec3 0 0 1] = true ∧
    1 ≤ [vec3 1 0 0, vec3 0 1 0, vec3 0 0 1].length ∧
    chebyshev_evaluate (.arr [vec3 1 0 0, vec3 0 1 0, vec3 0 0 1]) 0 =
      .ok ((chebSeries (compX [vec3 1 0 0, vec3 0 1 0, vec3 0 0 1])
              [vec3 1 0 0, vec3 0 1 0, vec3 0 0 1].length).eval 0,
           (chebSeries (compY [vec3 1 0 0, vec3 0 1 0, vec3 0 0 1])
              [vec3 1 0 0, vec3 0 1 0, vec3 0 0 1].length).eval 0,
           (chebSeries (compZ [vec3 1 0 0, vec3 0 1 0, vec3 0 0 1])
              [vec3 1 0 0, vec3 0 1 0, vec3 0 0 1].length).eval 0) :=
  ⟨by decide, by decide, claim_C2 _ 0 (by decide) (by decide)⟩

/-- Claim C3: with fewer than two coefficients the derivative call
returns the zero vector at once, for every `t` and every `radius`
(including `radius = 0`), without entering the loop or dividing. -/
theorem claim_C3 (l : List RVal) (t radius : ℚ) (h : l.length < 2) :
    chebyshev_evaluate_derivative (.arr l) t radius = .ok (0, 0, 0) := by
  show (if l.length < 2 then Except.ok (0, 0, 0) else _) = _
  rw [if_pos h]

theorem claim_C3_witness :
    [RVal.num 5].length < 2 ∧
    chebyshev_evaluate_derivative (.arr [RVal.num 5]) 7 0 = .ok (0, 0, 0) :=
  ⟨by decide, claim_C3 [RVal.num 5] 7 0 (by decide)⟩

/-- Claim C6 (counterexample): contrary to the spec, an empty
coefficient record is NOT accepted: `evaluate([], 0)` raises a type
error, because `rb_ary_entry(coeffs, 0)` yields `nil` and the inner
`Check_Type(nil, T_ARRAY)` rejects it. -/
theorem claim_C6_counterexample :
    chebyshev_evaluate (.arr ([] : List RVal)) 0 = .error () := rfl

/-- Claim C6 (amended): `evaluate` rejects an empty coefficient record
with a type/shape error for every `t`; it never returns a degenerate
value for `n = 0`. -/
theorem claim_C6 (t : ℚ) :
    chebyshev_evaluate (.arr ([] : List RVal)) t = .error () := rfl

/-- Claim C7: a single well-formed coefficient vector is returned
verbatim, independent of `t`: the loop runs zero iterations and the
combination step reduces to the degree-0 coefficient. -/
theorem claim_C7 (a b c t : ℚ) :
    chebyshev_evaluate (.arr [.arr [.num a, .num b, .num c]]) t = .ok (a, b, c) := by
  simp [chebyshev_evaluate, clenshawLoop, readCoeff3, checkArray, toDbl, entry,
    Except.instMonad, Except.bind, Except.map, Except.pure]

/-- Claim C1 (counterexample): the spec's formula is off by a factor of
two.  For `coefficients = [[0,0,0],[1,0,0]]`, `t = 0`, `radius = 86400`
the code returns `(1, 0, 0)`, but "raw derivative times
`SECONDS_PER_DAY / (2·radius)`" is `(1/2, 0, 0)`. -/
theorem claim_C1_counterexample :
    chebyshev_evaluate_derivative (.arr [vec3 0 0 0, vec3 1 0 0]) 0 86400 ≠
      .ok (chebSeriesDeriv (compX [vec3 0 0 0, vec3 1 0 0]) 2 0 * (SECONDS_PER_DAY / (2 * 86400)),
           chebSeriesDeriv (compY [vec3 0 0 0, vec3 1 0 0]) 2 0 * (SECONDS_PER_DAY / (2 * 86400)),
           chebSeriesDeriv (compZ [vec3 0 0 0, vec3 1 0 0]) 2 0 * (SECONDS_PER_DAY / (2 * 86400))) := by
  have hcode : chebyshev_evaluate_derivative (.arr [vec3 0 0 0, vec3 1 0 0]) 0 86400 =
      .ok (1, 0, 0) := by
    simp [chebyshev_evaluate_derivative, derivLoop, readCoeff3, checkArray, toDbl, entry,
      vec3, SECONDS_PER_DAY, Except.instMonad, Except.bind, Except.map, Except.pure]
    norm_num
  have hX : chebSeriesDeriv (compX [vec3 0 0 0, vec3 1 0 0]) 2 0 = 1 := by
    rw [chebSeriesDeriv_eq_sum]
    simp [Finset.sum_range_succ, chebU,
      compX, coeffAt, readCoeff3, entry, checkArray, toDbl, vec3,
      Except.instMonad, Except.bind, Except.map, Except.pure]
  have hY : chebSeriesDeriv (compY [vec3 0 0 0, vec3 1 0 0]) 2 0 = 0 := by
    rw [chebSeriesDeriv_eq_sum]
    simp [Finset.sum_range_succ, chebU,
      compY, coeffAt, readCoeff3, entry, checkArray, toDbl, vec3,
      Except.instMonad, Except.bind, Except.map, Except.pure]
  have hZ : chebSeriesDeriv (compZ [vec3 0 0 0, vec3 1 0 0]) 2 0 = 0 := by
    rw [chebSeriesDeriv_eq_sum]
    simp [Finset.sum_range_succ, chebU,
      compZ, coeffAt, readCoeff3, entry, checkArray, toDbl, vec3,
      Except.instMonad, Except.bind, Except.map, Except.pure]
  rw [hcode, hX, hY, hZ]
  simp [SECONDS_PER_DAY]
  norm_num

/-- Claim C1 (amended): on a well-formed record with `n ≥ 2` and
`radius ≠ 0`, each component of `evaluate_derivative` equals the raw
derivative-with-respect-to-normalized-time of the axis's Chebyshev
series multiplied by `SECONDS_PER_DAY / radius` (not `/(2·radius)`);
correspondingly, the accumulator `d1` left by the loop is TWICE the raw
derivative on each axis, and the factor two cancels against the `2` in
`scale = SECONDS_PER_DAY / (2·radius)`. -/
theorem claim_C1 (l : List RVal) (t radius : ℚ)
    (hwf : wfRecord l = true) (hn : 2 ≤ l.length) (hr : radius ≠ 0) :
    chebyshev_evaluate_derivative (.arr l) t radius =
      .ok (chebSeriesDeriv (compX l) l.length t * (SECONDS_PER_DAY / radius),
           chebSeriesDeriv (compY l) l.length t * (SECONDS_PER_DAY / radius),
           chebSeriesDeriv (compZ l) l.length t * (SECONDS_PER_DAY / radius)) ∧
    ∃ d1 d2, derivLoop l (2 * t) (l.length - 1) (0, 0, 0) (0, 0, 0) = .ok (d1, d2) ∧
      d1.1 = 2 * chebSeriesDeriv (compX l) l.length t ∧
      d1.2.1 = 2 * chebSeriesDeriv (compY l) l.length t ∧
      d1.2.2 = 2 * chebSeriesDeriv (compZ l) l.length t := by
  refine ⟨derivative_wf l t radius hwf hn hr, ?_⟩
  obtain ⟨d2, hl⟩ := derivLoop_closed l t hwf hn
  exact ⟨_, d2, hl, rfl, rfl, rfl⟩

theorem claim_C1_witness :
    wfRecord [vec3 0 0 0, vec3 1 0 0] = true ∧
    2 ≤ [vec3 0 0 0, vec3 1 0 0].length ∧ (86400 : ℚ) ≠ 0 ∧
    (chebyshev_evaluate_derivative (.arr [vec3 0 0 0, vec3 1 0 0]) 0 86400 =
      .ok (chebSeriesDeriv (compX [vec3 0 0 0, vec3 1 0 0]) 2 0 * (SECONDS_PER_DAY / 86400),
           chebSeriesDeriv (compY [vec3 0 0 0, vec3 1 0 0]) 2 0 * (SECONDS_PER_DAY / 86400),
           chebSeriesDeriv (compZ [vec3 0 0 0, vec3 1 0 0]) 2 0 * (SECONDS_PER_DAY / 86400)) ∧
     ∃ d1 d2, derivLoop [vec3 0 0 0, vec3 1 0 0] (2 * 0) 1 (0, 0, 0) (0, 0, 0) = .ok (d1, d2) ∧
       d1.1 = 2 * chebSeriesDeriv (compX [vec3 0 0 0, vec3 1 0 0]) 2 0 ∧
       d1.2.1 = 2 * chebSeriesDeriv (compY [vec3 0 0 0, vec3 1 0 0]) 2 0 ∧
       d1.2.2 = 2 * chebSeriesDeriv (compZ [vec3 0 0 0, vec3 1 0 0]) 2 0) :=
  ⟨by decide, by decide, by norm_num,
    claim_C1 [vec3 0 0 0, vec3 1 0 0] 0 86400 (by decide) (by decide) (by norm_num)⟩

/-- Claim C8: `evaluate` is linear in the coefficient record: scaling
every coefficient component by a constant `c` scales every component of
the result by `c`. -/
theorem claim_C8 (l : List RVal) (t c : ℚ)
    (hwf : wfRecord l = true) (hn : 1 ≤ l.length) :
    ∃ v : ℚ × ℚ × ℚ, chebyshev_evaluate (.arr l) t = .ok v ∧
      chebyshev_evaluate (.arr (scaleRec c l)) t = .ok (c * v.1, c * v.2.1, c * v.2.2) := by
  refine ⟨_, evaluate_wf l t hwf hn, ?_⟩
  have hlen : (scaleRec c l).length = l.length := List.length_map l (scaleVec c)
  rw [evaluate_wf (scaleRec c l) t (wfRecord_scale hwf) (by omega)]
  have hfX : compX (scaleRec c l) = fun k => c * compX l k :=
    funext fun k => (comp_scale c l k).1
  have hfY : compY (scaleRec c l) = fun k => c * compY l k :=
    funext fun k => (comp_scale c l k).2.1
  have hfZ : compZ (scaleRec c l) = fun k => c * compZ l k :=
    funext fun k => (comp_scale c l k).2.2
  have hscaleEval : ∀ f : ℕ → ℚ,
      (chebSeries (fun k => c * f k) l.length).eval t
        = c * (chebSeries f l.length).eval t := by
    intro f
    rw [chebSeries_eval, chebSeries_eval, Finset.mul_sum]
    exact Finset.sum_congr rfl fun k _ => by ring
  rw [hlen, hfX, hfY, hfZ, hscaleEval (compX l), hscaleEval (compY l), hscaleEval (compZ l)]

theorem claim_C8_witness :
    wfRecord [vec3 1 2 3, vec3 4 5 6] = true ∧
    1 ≤ [vec3 1 2 3, vec3 4 5 6].length ∧
    (∃ v : ℚ × ℚ × ℚ, chebyshev_evaluate (.arr [vec3 1 2 3, vec3 4 5 6]) 1 = .ok v ∧
      chebyshev_evaluate (.arr (scaleRec 3 [vec3 1 2 3, vec3 4 5 6])) 1 =
        .ok (3 * v.1, 3 * v.2.1, 3 * v.2.2)) :=
  ⟨by decide, by decide, claim_C8 [vec3 1 2 3, vec3 4 5 6] 1 3 (by decide) (by decide)⟩

/-- Claim C4 (counterexample): the two operations do NOT reject exactly
the same records.  On `coefficients = [5]` (one non-array element),
`evaluate` raises a type error (it validates index 0), while
`evaluate_derivative` takes the `n < 2` early return and yields
`(0, 0, 0)` without validating anything. -/
theorem claim_C4_counterexample :
    chebyshev_evaluate (.arr [RVal.num 5]) 0 = .error () ∧
    chebyshev_evaluate_derivative (.arr [RVal.num 5]) 0 1 = .ok (0, 0, 0) :=
  ⟨rfl, rfl⟩

/-- Claim C4 (amended): the two operations reject exactly the same
inputs provided that, whenever the outer value is an array, it has
`n ≥ 2` elements and its index-0 element extracts successfully.  (With
`n < 2` the derivative never raises while `evaluate` may; with a
malformed index-0 element only `evaluate` raises, since the derivative
loop stops at index 1.) -/
theorem claim_C4 (rb : RVal) (t radius : ℚ)
    (h : ∀ l, rb = .arr l → 2 ≤ l.length ∧ okB (readCoeff3 (entry l 0)) = true) :
    errB (chebyshev_evaluate rb t) = errB (chebyshev_evaluate_derivative rb t radius) := by
  cases rb with
  | num q => rfl
  | nl => rfl
  | arr l =>
    obtain ⟨hn, h0⟩ := h l rfl
    have hsame := loops_same_err l (2 * t) (2 * t) (l.length - 1)
      (0, 0, 0) (0, 0, 0) (0, 0, 0) (0, 0, 0)
    show errB (do
        let b ← clenshawLoop l (2 * t) (l.length - 1) (0, 0, 0) (0, 0, 0)
        let c ← readCoeff3 (entry l 0)
        return (t * b.1.1 - b.2.1 + c.1,
                t * b.1.2.1 - b.2.2.1 + c.2.1,
                t * b.1.2.2 - b.2.2.2 + c.2.2))
      = errB (if l.length < 2 then Except.ok (0, 0, 0) else do
        let d ← derivLoop l (2 * t) (l.length - 1) (0, 0, 0) (0, 0, 0)
        let scale := SECONDS_PER_DAY / (2 * radius)
        return (d.1.1 * scale, d.1.2.1 * scale, d.1.2.2 * scale))
    rw [if_neg (by omega)]
    rcases except_cases (clenshawLoop l (2 * t) (l.length - 1) (0, 0, 0) (0, 0, 0))
      with hb | ⟨b, hb⟩ <;>
      rcases except_cases (derivLoop l (2 * t) (l.length - 1) (0, 0, 0) (0, 0, 0))
        with hd | ⟨d, hd⟩ <;>
      rw [hb, hd] at hsame ⊢
    · rfl
    · simp [errB] at hsame
    · simp [errB] at hsame
    · rw [read_ok_eq h0]
      rfl

theorem claim_C4_witness :
    (∀ l, RVal.arr [vec3 1 2 3, RVal.num 7] = RVal.arr l →
      2 ≤ l.length ∧ okB (readCoeff3 (entry l 0)) = true) ∧
    errB (chebyshev_evaluate (.arr [vec3 1 2 3, RVal.num 7]) 0) =
      errB (chebyshev_evaluate_derivative (.arr [vec3 1 2 3, RVal.num 7]) 0 1) :=
  ⟨fun l hl => by cases hl; exact ⟨by decide, by decide⟩,
   claim_C4 (.arr [vec3 1 2 3, RVal.num 7]) 0 1
     fun l hl => by cases hl; exact ⟨by decide, by decide⟩⟩

/-- Claim C5 (counterexample): a record containing a 2-component inner
vector is NOT always rejected by `evaluate_derivative`: when the short
element sits at index 0 the derivative loop never reads it, and the call
returns a computed value. -/
theorem claim_C5_counterexample :
    shortVec (.arr [RVal.num 1, RVal.num 2]) = true ∧
    chebyshev_evaluate_derivative
        (.arr [.arr [RVal.num 1, RVal.num 2], vec3 1 2 3]) 0 43200 = .ok (2, 4, 6) := by
  constructor
  · decide
  · simp [chebyshev_evaluate_derivative, derivLoop, readCoeff3, checkArray, toDbl, entry,
      vec3, SECONDS_PER_DAY, Except.instMonad, Except.bind, Except.map, Except.pure]
    norm_num

/-- Claim C5 (amended): a record containing an inner vector of fewer
than 3 numeric components is always rejected by `evaluate` (which reads
every index), and by `evaluate_derivative` whenever `n ≥ 2` and such an
element sits at one of the indices `1..n-1` that its loop reads; no
partial result is produced in those cases. -/
theorem claim_C5 (l : List RVal) (t radius : ℚ) :
    ((∃ k, k < l.length ∧ shortVec (entry l k) = true) →
      chebyshev_evaluate (.arr l) t = .error ()) ∧
    (2 ≤ l.length → (∃ k, 1 ≤ k ∧ k ≤ l.length - 1 ∧ shortVec (entry l k) = true) →
      chebyshev_evaluate_derivative (.arr l) t radius = .error ()) := by
  constructor
  · rintro ⟨k, hk, hshort⟩
    rcases except_cases (chebyshev_evaluate (.arr l) t) with he | ⟨p, he⟩
    · exact he
    · have hok := evaluate_ok_reads l t p he k hk
      rw [shortVec_read_err hshort] at hok
      simp [okB] at hok
  · rintro hn ⟨k, hk1, hk2, hshort⟩
    rcases except_cases (chebyshev_evaluate_derivative (.arr l) t radius) with he | ⟨p, he⟩
    · exact he
    · have hok := derivative_ok_reads l t radius p hn he k hk1 hk2
      rw [shortVec_read_err hshort] at hok
      simp [okB] at hok

theorem claim_C5_witness :
    chebyshev_evaluate (.arr [.arr [RVal.num 1, RVal.num 2]]) 0 = .error () ∧
    chebyshev_evaluate_derivative
        (.arr [vec3 1 2 3, .arr [RVal.num 1, RVal.num 2]]) 0 1 = .error () :=
  ⟨(claim_C5 [.arr [RVal.num 1, RVal.num 2]] 0 1).1 ⟨0, by decide, by decide⟩,
   (claim_C5 [vec3 1 2 3, .arr [RVal.num 1, RVal.num 2]] 0 1).2 (by decide)
     ⟨1, by decide, by decide, by decide⟩⟩

/-- Claim C9: for `n ≥ 2`, `evaluate_derivative` never reads the
element at index 0: two records of equal length agreeing at every index
`1..n-1` (index 0 arbitrary, even malformed) produce identical results. -/
theorem claim_C9 (l1 l2 : List RVal) (t radius : ℚ)
    (hlen : l1.length = l2.length) (hn : 2 ≤ l1.length)
    (hagree : ∀ k, 1 ≤ k → k ≤ l1.length - 1 → entry l1 k = entry l2 k) :
    chebyshev_evaluate_derivative (.arr l1) t radius =
      chebyshev_evaluate_derivative (.arr l2) t radius := by
  show (if l1.length < 2 then Except.ok (0, 0, 0) else do
      let d ← derivLoop l1 (2 * t) (l1.length - 1) (0, 0, 0) (0, 0, 0)
      let scale := SECONDS_PER_DAY / (2 * radius)
      return (d.1.1 * scale, d.1.2.1 * scale, d.1.2.2 * scale))
    = (if l2.length < 2 then Except.ok (0, 0, 0) else do
      let d ← derivLoop l2 (2 * t) (l2.length - 1) (0, 0, 0) (0, 0, 0)
      let scale := SECONDS_PER_DAY / (2 * radius)
      return (d.1.1 * scale, d.1.2.1 * scale, d.1.2.2 * scale))
  have hm : l2.length - 1 = l1.length - 1 := by omega
  rw [if_neg (by omega), if_neg (by omega), hm,
    derivLoop_agree l1 l2 (2 * t) (l1.length - 1) (0, 0, 0) (0, 0, 0)
      fun k h1 h2 => innerAgree_of_eq (hagree k h1 h2)]

theorem claim_C9_witness :
    ([RVal.arr [RVal.num 0, RVal.num 0, RVal.num 0], vec3 1 2 3].length
        = [RVal.num 99, vec3 1 2 3].length) ∧
    2 ≤ [RVal.arr [RVal.num 0, RVal.num 0, RVal.num 0], vec3 1 2 3].length ∧
    (∀ k, 1 ≤ k → k ≤ [RVal.arr [RVal.num 0, RVal.num 0, RVal.num 0], vec3 1 2 3].length - 1 →
      entry [RVal.arr [RVal.num 0, RVal.num 0, RVal.num 0], vec3 1 2 3] k
        = entry [RVal.num 99, vec3 1 2 3] k) ∧
    chebyshev_evaluate_derivative
        (.arr [RVal.arr [RVal.num 0, RVal.num 0, RVal.num 0], vec3 1 2 3]) 0 43200 =
      chebyshev_evaluate_derivative (.arr [RVal.num 99, vec3 1 2 3]) 0 43200 ∧
    chebyshev_evaluate_derivative (.arr [RVal.num 99, vec3 1 2 3]) 0 43200 = .ok (2, 4, 6) := by
  have hagree : ∀ k, 1 ≤ k →
      k ≤ [RVal.arr [RVal.num 0, RVal.num 0, RVal.num 0], vec3 1 2 3].length - 1 →
      entry [RVal.arr [RVal.num 0, RVal.num 0, RVal.num 0], vec3 1 2 3] k
        = entry [RVal.num 99, vec3 1 2 3] k := by
    intro k h1 h2
    have h2' : k ≤ 1 := h2
    have hk : k = 1 := by omega
    subst hk
    rfl
  refine ⟨rfl, by decide, hagree, claim_C9 _ _ 0 43200 rfl (by decide) hagree, ?_⟩
  simp [chebyshev_evaluate_derivative, derivLoop, readCoeff3, checkArray, toDbl, entry,
    vec3, SECONDS_PER_DAY, Except.instMonad, Except.bind, Except.map, Except.pure]
  norm_num

/-- Claim C10: both operations read only components 0, 1 and 2 of each
inner vector: records whose elements agree on those components (longer
inner vectors allowed, extra components arbitrary) produce identical
results, and a record whose elements have numeric entries at indices
0..2 is accepted without error regardless of the inner length. -/
theorem claim_C10 (l1 l2 : List RVal) (t radius : ℚ)
    (hlen : l1.length = l2.length)
    (hagree : ∀ k, k < l1.length → innerAgree (entry l1 k) (entry l2 k)) :
    chebyshev_evaluate (.arr l1) t = chebyshev_evaluate (.arr l2) t ∧
    chebyshev_evaluate_derivative (.arr l1) t radius =
      chebyshev_evaluate_derivative (.arr l2) t radius ∧
    (1 ≤ l1.length → wfRecord l1 = true →
      okB (chebyshev_evaluate (.arr l1) t) = true ∧
      okB (chebyshev_evaluate_derivative (.arr l1) t radius) = true) := by
  have hm : l2.length - 1 = l1.length - 1 := by omega
  refine ⟨?_, ?_, ?_⟩
  · have hloop := clenshawLoop_agree l1 l2 (2 * t) (l1.length - 1) (0, 0, 0) (0, 0, 0)
      fun k h1 h2 => hagree k (by omega)
    have h0 : readCoeff3 (entry l1 0) = readCoeff3 (entry l2 0) := by
      rcases Nat.eq_zero_or_pos l1.length with hz | hp
      · have e1 : l1 = [] := List.length_eq_zero.mp hz
        have e2 : l2 = [] := List.length_eq_zero.mp (by omega)
        rw [e1, e2]
      · exact readCoeff3_agree (hagree 0 hp)
    show (do
        let b ← clenshawLoop l1 (2 * t) (l1.length - 1) (0, 0, 0) (0, 0, 0)
        let c ← readCoeff3 (entry l1 0)
        return (t * b.1.1 - b.2.1 + c.1,
                t * b.1.2.1 - b.2.2.1 + c.2.1,
                t * b.1.2.2 - b.2.2.2 + c.2.2))
      = (do
        let b ← clenshawLoop l2 (2 * t) (l2.length - 1) (0, 0, 0) (0, 0, 0)
        let c ← readCoeff3 (entry l2 0)
        return (t * b.1.1 - b.2.1 + c.1,
                t * b.1.2.1 - b.2.2.1 + c.2.1,
                t * b.1.2.2 - b.2.2.2 + c.2.2))
    rw [hm, hloop, h0]
  · show (if l1.length < 2 then Except.ok (0, 0, 0) else do
        let d ← derivLoop l1 (2 * t) (l1.length - 1) (0, 0, 0) (0, 0, 0)
        let scale := SECONDS_PER_DAY / (2 * radius)
        return (d.1.1 * scale, d.1.2.1 * scale, d.1.2.2 * scale))
      = (if l2.length < 2 then Except.ok (0, 0, 0) else do
        let d ← derivLoop l2 (2 * t) (l2.length - 1) (0, 0, 0) (0, 0, 0)
        let scale := SECONDS_PER_DAY / (2 * radius)
        return (d.1.1 * scale, d.1.2.1 * scale, d.1.2.2 * scale))
    rcases Nat.lt_or_ge l1.length 2 with h | h
    · rw [if_pos h, if_pos (by omega)]
    · rw [if_neg (by omega), if_neg (by omega), hm,
        derivLoop_agree l1 l2 (2 * t) (l1.length - 1) (0, 0, 0) (0, 0, 0)
          fun k h1 h2 => hagree k (by omega)]
  · intro hp hwf
    constructor
    · rw [evaluate_wf l1 t hwf hp]
      rfl
    · rcases Nat.lt_or_ge l1.length 2 with h | h
      · show okB (if l1.length < 2 then Except.ok (0, 0, 0) else _) = true
        rw [if_pos h]
        rfl
      · show okB (if l1.length < 2 then Except.ok (0, 0, 0) else do
            let d ← derivLoop l1 (2 * t) (l1.length - 1) (0, 0, 0) (0, 0, 0)
            let scale := SECONDS_PER_DAY / (2 * radius)
            return (d.1.1 * scale, d.1.2.1 * scale, d.1.2.2 * scale)) = true
        rw [if_neg (by omega),
          derivLoop_wf_ok l1 t (l1.length - 1) 0 0 0 0 0 0
            fun k h1 h2 => wf_read hwf (by omega)]
        rfl

theorem claim_C10_witness :
    ([RVal.arr [RVal.num 1, RVal.num 2, RVal.num 3, RVal.nl]].length
        = [RVal.arr [RVal.num 1, RVal.num 2, RVal.num 3, RVal.num 99, RVal.num 100]].length) ∧
    (∀ k, k < [RVal.arr [RVal.num 1, RVal.num 2, RVal.num 3, RVal.nl]].length →
      innerAgree (entry [RVal.arr [RVal.num 1, RVal.num 2, RVal.num 3, RVal.nl]] k)
        (entry [RVal.arr [RVal.num 1, RVal.num 2, RVal.num 3, RVal.num 99, RVal.num 100]] k)) ∧
    (chebyshev_evaluate (.arr [RVal.arr [RVal.num 1, RVal.num 2, RVal.num 3, RVal.nl]]) 0 =
      chebyshev_evaluate
        (.arr [RVal.arr [RVal.num 1, RVal.num 2, RVal.num 3, RVal.num 99, RVal.num 100]]) 0 ∧
     chebyshev_evaluate_derivative
        (.arr [RVal.arr [RVal.num 1, RVal.num 2, RVal.num 3, RVal.nl]]) 0 5 =
      chebyshev_evaluate_derivative
        (.arr [RVal.arr [RVal.num 1, RVal.num 2, RVal.num 3, RVal.num 99, RVal.num 100]]) 0 5 ∧
     (1 ≤ [RVal.arr [RVal.num 1, RVal.num 2, RVal.num 3, RVal.nl]].length →
      wfRecord [RVal.arr [RVal.num 1, RVal.num 2, RVal.num 3, RVal.nl]] = true →
      okB (chebyshev_evaluate (.arr [RVal.arr [RVal.num 1, RVal.num 2, RVal.num 3, RVal.nl]]) 0)
          = true ∧
      okB (chebyshev_evaluate_derivative
          (.arr [RVal.arr [RVal.num 1, RVal.num 2, RVal.num 3, RVal.nl]]) 0 5) = true)) ∧
    wfRecord [RVal.arr [RVal.num 1, RVal.num 2, RVal.num 3, RVal.nl]] = true := by
  have hagree : ∀ k, k < [RVal.arr [RVal.num 1, RVal.num 2, RVal.num 3, RVal.nl]].length →
      innerAgree (entry [RVal.arr [RVal.num 1, RVal.num 2, RVal.num 3, RVal.nl]] k)
        (entry [RVal.arr [RVal.num 1, RVal.num 2, RVal.num 3, RVal.num 99, RVal.num 100]] k) := by
    intro k hk
    have hk' : k < 1 := hk
    have hk0 : k = 0 := by omega
    subst hk0
    exact ⟨rfl, rfl, rfl⟩
  exact ⟨rfl, hagree,
    claim_C10 _ _ 0 5 rfl hagree,
    by decide⟩

end RubyEphem
